import Mathlib

/-!
Verification of the ASE lead self-energy engine (`ase/transport/selfenergy.py`)
and the phonon force-constant / dynamical-matrix pipeline (`ase/phonons.py`).

The floating-point complex scalars of the source are embedded as Gaussian
rationals (pairs of rationals with complex multiplication), so every matrix
operation of the source is represented by exact, executable arithmetic.
-/

/-- Exact complex scalar: a Gaussian rational `re + im·i`.  This embeds the
complex floating point numbers used by `ase.transport.selfenergy`. -/
structure QC where
  re : ℚ
  im : ℚ
deriving DecidableEq

namespace QC

/-- Zero. -/
def zero : QC := ⟨0, 0⟩

/-- One. -/
def one : QC := ⟨1, 0⟩

/-- The imaginary unit `1j` of the source. -/
def ii : QC := ⟨0, 1⟩

/-- Addition. -/
def add (x y : QC) : QC := ⟨x.re + y.re, x.im + y.im⟩

/-- Negation. -/
def neg (x : QC) : QC := ⟨-x.re, -x.im⟩

/-- Complex multiplication. -/
def mul (x y : QC) : QC := ⟨x.re * y.re - x.im * y.im, x.re * y.im + x.im * y.re⟩

/-- Complex conjugation (`numpy.conj`). -/
def conj (x : QC) : QC := ⟨x.re, -x.im⟩

/-- Squared modulus; `abs z ≤ c` for the source's nonnegative tolerances is
expressed exactly as `absSq z ≤ c^2`. -/
def absSq (x : QC) : ℚ := x.re * x.re + x.im * x.im

/-- Multiplicative inverse (zero at zero). -/
def inv (x : QC) : QC := ⟨x.re / absSq x, -x.im / absSq x⟩

instance : Zero QC := ⟨zero⟩
instance : One QC := ⟨one⟩
instance : Add QC := ⟨add⟩
instance : Neg QC := ⟨neg⟩
instance : Mul QC := ⟨mul⟩

theorem zero_def : (0 : QC) = ⟨0, 0⟩ := rfl

theorem one_def : (1 : QC) = ⟨1, 0⟩ := rfl

theorem add_def (x y : QC) : x + y = ⟨x.re + y.re, x.im + y.im⟩ := rfl

theorem neg_def (x : QC) : -x = ⟨-x.re, -x.im⟩ := rfl

theorem mul_def (x y : QC) :
    x * y = ⟨x.re * y.re - x.im * y.im, x.re * y.im + x.im * y.re⟩ := rfl

theorem mk_eq_mk {a b c d : ℚ} : (⟨a, b⟩ : QC) = ⟨c, d⟩ ↔ a = c ∧ b = d := by
  constructor
  · intro h
    cases h
    exact ⟨rfl, rfl⟩
  · rintro ⟨rfl, rfl⟩
    rfl

instance : CommRing QC where
  add := add
  add_assoc := by
    rintro ⟨a, b⟩ ⟨c, d⟩ ⟨e, f⟩
    simp only [add_def, mk_eq_mk]
    constructor <;> ring
  zero := zero
  zero_add := by
    rintro ⟨a, b⟩
    simp only [add_def, zero_def, mk_eq_mk]
    constructor <;> ring
  add_zero := by
    rintro ⟨a, b⟩
    simp only [add_def, zero_def, mk_eq_mk]
    constructor <;> ring
  add_comm := by
    rintro ⟨a, b⟩ ⟨c, d⟩
    simp only [add_def, mk_eq_mk]
    constructor <;> ring
  neg := neg
  neg_add_cancel := by
    rintro ⟨a, b⟩
    simp only [add_def, neg, zero_def, mk_eq_mk]
    constructor <;> ring
  mul := mul
  mul_assoc := by
    rintro ⟨a, b⟩ ⟨c, d⟩ ⟨e, f⟩
    simp only [mul_def, mk_eq_mk]
    constructor <;> ring
  one := one
  one_mul := by
    rintro ⟨a, b⟩
    simp only [mul_def, one_def, mk_eq_mk]
    constructor <;> ring
  mul_one := by
    rintro ⟨a, b⟩
    simp only [mul_def, one_def, mk_eq_mk]
    constructor <;> ring
  left_distrib := by
    rintro ⟨a, b⟩ ⟨c, d⟩ ⟨e, f⟩
    simp only [mul_def, add_def, mk_eq_mk]
    constructor <;> ring
  right_distrib := by
    rintro ⟨a, b⟩ ⟨c, d⟩ ⟨e, f⟩
    simp only [mul_def, add_def, mk_eq_mk]
    constructor <;> ring
  mul_comm := by
    rintro ⟨a, b⟩ ⟨c, d⟩
    simp only [mul_def, mk_eq_mk]
    constructor <;> ring
  zero_mul := by
    rintro ⟨a, b⟩
    simp only [mul_def, zero_def, mk_eq_mk]
    constructor <;> ring
  mul_zero := by
    rintro ⟨a, b⟩
    simp only [mul_def, zero_def, mk_eq_mk]
    constructor <;> ring
  nsmul := nsmulRec
  zsmul := zsmulRec

theorem sub_def (x y : QC) : x - y = ⟨x.re - y.re, x.im - y.im⟩ := by
  rw [sub_eq_add_neg, add_def, neg_def]
  simp only [mk_eq_mk]
  constructor <;> ring

theorem conj_add (x y : QC) : conj (x + y) = conj x + conj y := by
  cases x
  cases y
  simp only [conj, add_def, mk_eq_mk]
  constructor <;> ring

theorem conj_mul (x y : QC) : conj (x * y) = conj x * conj y := by
  cases x
  cases y
  simp only [conj, mul_def, mk_eq_mk]
  constructor <;> ring

theorem conj_neg (x : QC) : conj (-x) = -conj x := by
  cases x
  simp only [conj, neg_def]

theorem conj_sub (x y : QC) : conj (x - y) = conj x - conj y := by
  rw [sub_eq_add_neg, conj_add, conj_neg, sub_eq_add_neg]

theorem conj_conj (x : QC) : conj (conj x) = x := by
  cases x
  simp only [conj, neg_neg]

theorem conj_ii : conj ii = -ii := rfl

end QC

section MatrixHelpers

variable {a b c : ℕ}

/-- Modelled from the spec: `dagger` from `ase.transport.tools` (not under
`src/`) is the conjugate transpose ("the `_im`/`_mi` pair ... are
Hermitian-conjugate-related by transpose+conjugate"; "d denotes the hermitian
conjugate"). -/
def dagger (M : Matrix (Fin a) (Fin b) QC) : Matrix (Fin b) (Fin a) QC :=
  Matrix.of fun p q => QC.conj (M q p)

theorem dagger_apply (M : Matrix (Fin a) (Fin b) QC) (p : Fin b) (q : Fin a) :
    dagger M p q = QC.conj (M q p) := rfl

/-- `numpy.linalg.solve A B`: the solution `X` of `A·X = B`, i.e. `A⁻¹·B` for
invertible `A`, realised executably through the adjugate formula for the
inverse. -/
def npsolve (A : Matrix (Fin a) (Fin a) QC) (B : Matrix (Fin a) (Fin b) QC) :
    Matrix (Fin a) (Fin b) QC :=
  QC.inv A.det • (A.adjugate * B)

/-- `z * M` for a scalar `z` and matrix `M` (numpy scalar broadcasting). -/
theorem smul_apply (z : QC) (M : Matrix (Fin a) (Fin b) QC) (p : Fin a) (q : Fin b) :
    (z • M) p q = z * M p q := rfl

end MatrixHelpers

example : QC.ii * QC.ii = -1 := by
  simp only [QC.ii, QC.mul_def, ← QC.neg_def, QC.one_def, QC.neg_def, QC.mk_eq_mk]
  norm_num

/-- Evaluation rule for `npsolve` on 1×1 systems, used by concrete witnesses. -/
theorem npsolve_fin_one (A : Matrix (Fin 1) (Fin 1) QC) (B : Matrix (Fin 1) (Fin 1) QC)
    (p q : Fin 1) : npsolve A B p q = QC.inv (A 0 0) * B p q := by
  simp [npsolve, Matrix.det_fin_one, Matrix.adjugate_fin_one, smul_apply]

example : npsolve (Matrix.of ![![(⟨2, 0⟩ : QC)]]) (Matrix.of ![![(⟨6, 0⟩ : QC)]]) 0 0 =
    ⟨3, 0⟩ := by
  rw [npsolve_fin_one]
  simp only [Matrix.of_apply, Matrix.cons_val_zero, Matrix.cons_val_fin_one]
  simp only [QC.inv, QC.absSq, QC.mul_def, QC.mk_eq_mk]
  norm_num

/-! ## Embedding of `ase.transport.selfenergy.LeadSelfEnergy`

The mutable object is embedded as a state record; `__call__` returns the
result together with the updated state.  The unbounded `while` loop of
`get_sgfinv` is embedded with explicit fuel: `none` means the loop has not
terminated within `fuel` iterations. -/

/-- State of a `LeadSelfEnergy` object (`LeadSelfEnergy.__init__`). -/
structure LeadSelfEnergy (n m : ℕ) where
  h_ii : Matrix (Fin n) (Fin n) QC
  s_ii : Matrix (Fin n) (Fin n) QC
  h_ij : Matrix (Fin n) (Fin n) QC
  s_ij : Matrix (Fin n) (Fin n) QC
  h_im : Matrix (Fin n) (Fin m) QC
  s_im : Matrix (Fin n) (Fin m) QC
  eta : ℚ
  energy : Option QC
  bias : QC
  sigma_mm : Matrix (Fin m) (Fin m) QC

namespace LeadSelfEnergy

/-- The class attribute `conv = 1e-8`. -/
def conv : ℚ := 1 / 100000000

/-- `z = energy - self.bias + self.eta * 1.j`. -/
def zOf {n m : ℕ} (lse : LeadSelfEnergy n m) (energy : QC) : QC :=
  energy - lse.bias + ⟨0, lse.eta⟩

/-- The four working matrices of `get_sgfinv`. -/
@[ext]
structure SGState (n : ℕ) where
  v00 : Matrix (Fin n) (Fin n) QC
  v11 : Matrix (Fin n) (Fin n) QC
  v10 : Matrix (Fin n) (Fin n) QC
  v01 : Matrix (Fin n) (Fin n) QC

/-- Initial working matrices of `get_sgfinv`:
`v_00 = z·S_ii† − H_ii†` (copied into `v_11`), `v_10 = z·S_ij − H_ij`,
`v_01 = z·S_ij† − H_ij†`. -/
def sgfInit {n m : ℕ} (lse : LeadSelfEnergy n m) (z : QC) : SGState n :=
  { v00 := z • dagger lse.s_ii - dagger lse.h_ii
    v11 := z • dagger lse.s_ii - dagger lse.h_ii
    v10 := z • lse.s_ij - lse.h_ij
    v01 := z • dagger lse.s_ij - dagger lse.h_ij }

/-- One iteration of the decimation loop body of `get_sgfinv`. -/
def sgfStep {n : ℕ} (st : SGState n) : SGState n :=
  let a := npsolve st.v11 st.v01
  let b := npsolve st.v11 st.v10
  let v01b := st.v01 * b
  { v00 := st.v00 - v01b
    v11 := st.v11 - st.v10 * a - v01b
    v10 := -(st.v10 * b)
    v01 := -(st.v01 * a) }

/-- `abs(M).max() > c` in exact arithmetic: some entry has squared modulus
above `c^2`.  The loop guard `delta > self.conv` is exactly this predicate on
the freshly updated `v_01`. -/
def deltaAbove {a b : ℕ} (M : Matrix (Fin a) (Fin b) QC) (c : ℚ) : Prop :=
  ∃ p q, c ^ 2 < QC.absSq (M p q)

instance {a b : ℕ} (M : Matrix (Fin a) (Fin b) QC) (c : ℚ) :
    Decidable (deltaAbove M c) := by
  unfold deltaAbove
  infer_instance

/-- The `while delta > self.conv` loop of `get_sgfinv`, with explicit fuel.
The body always runs at least once (`delta` starts at `conv + 1`), and the
fresh `v_01` is tested after each pass. -/
def sgfLoop {n : ℕ} : ℕ → SGState n → Option (Matrix (Fin n) (Fin n) QC)
  | 0, _ => none
  | fuel + 1, st =>
    let st' := sgfStep st
    if deltaAbove st'.v01 conv then sgfLoop fuel st' else some st'.v00

/-- `LeadSelfEnergy.get_sgfinv`: the inverse of the retarded surface Green
function at the given energy. -/
def get_sgfinv {n m : ℕ} (lse : LeadSelfEnergy n m) (energy : QC) (fuel : ℕ) :
    Option (Matrix (Fin n) (Fin n) QC) :=
  sgfLoop fuel (sgfInit lse (zOf lse energy))

/-- The loop of the C1 claim's words: stop exactly when `max(|v01|) < conv`,
i.e. iterate while some entry of `v_01` has modulus at least `conv`. -/
def claimSgfLoop {n : ℕ} : ℕ → SGState n → Option (Matrix (Fin n) (Fin n) QC)
  | 0, _ => none
  | fuel + 1, st =>
    let st' := sgfStep st
    if ∃ p q, conv ^ 2 ≤ QC.absSq (st'.v01 p q) then claimSgfLoop fuel st'
    else some st'.v00

/-- `get_sgfinv` as the C1 claim describes it (strict stopping threshold). -/
def claimSgfinv {n m : ℕ} (lse : LeadSelfEnergy n m) (energy : QC) (fuel : ℕ) :
    Option (Matrix (Fin n) (Fin n) QC) :=
  claimSgfLoop fuel (sgfInit lse (zOf lse energy))

/-- `LeadSelfEnergy.__call__`: return the self-energy at `energy`, recomputing
only when `energy` differs from the cached one, and mutating the cache. -/
def callLSE {n m : ℕ} (lse : LeadSelfEnergy n m) (energy : QC) (fuel : ℕ) :
    Option (Matrix (Fin m) (Fin m) QC × LeadSelfEnergy n m) :=
  if some energy = lse.energy then some (lse.sigma_mm, lse)
  else
    let z := zOf lse energy
    let tau_im := z • lse.s_im - lse.h_im
    match get_sgfinv lse energy fuel with
    | none => none
    | some G =>
      let a_im := npsolve G tau_im
      let tau_mi := z • dagger lse.s_im - dagger lse.h_im
      let sigma := tau_mi * a_im
      some (sigma, { lse with energy := some energy, sigma_mm := sigma })

/-- `LeadSelfEnergy.set_bias`. -/
def set_bias {n m : ℕ} (lse : LeadSelfEnergy n m) (b : QC) : LeadSelfEnergy n m :=
  { lse with bias := b }

/-- `LeadSelfEnergy.get_lambda`: `1j * (sigma - dagger sigma)` at the returned
self-energy, threading the cache state. -/
def get_lambda {n m : ℕ} (lse : LeadSelfEnergy n m) (energy : QC) (fuel : ℕ) :
    Option (Matrix (Fin m) (Fin m) QC × LeadSelfEnergy n m) :=
  (callLSE lse energy fuel).map fun p => (QC.ii • (p.1 - dagger p.1), p.2)

/-- Characterization of a do-while decimation loop with fuel: it returns a
value exactly when some iterate in fuel range is the first (at or past one
pass) to satisfy the exit condition, and the value is that iterate's `v00`. -/
theorem loop_eq_some_iff {n : ℕ}
    (L : ℕ → SGState n → Option (Matrix (Fin n) (Fin n) QC))
    (P : SGState n → Prop) [DecidablePred P]
    (h0 : ∀ st, L 0 st = none)
    (hS : ∀ fuel st, L (fuel + 1) st =
      if P (sgfStep st) then L fuel (sgfStep st) else some (sgfStep st).v00) :
    ∀ (fuel : ℕ) (st : SGState n) (V : Matrix (Fin n) (Fin n) QC),
      L fuel st = some V ↔
        ∃ k, 1 ≤ k ∧ k ≤ fuel ∧
          (∀ j, 1 ≤ j → j < k → P (sgfStep^[j] st)) ∧
          ¬ P (sgfStep^[k] st) ∧ V = (sgfStep^[k] st).v00 := by
  intro fuel
  induction fuel with
  | zero =>
    intro st V
    rw [h0]
    constructor
    · intro h
      exact absurd h (by simp)
    · rintro ⟨k, hk1, hk0, -⟩
      omega
  | succ fuel ih =>
    intro st V
    rw [hS]
    by_cases hP : P (sgfStep st)
    · rw [if_pos hP, ih]
      constructor
      · rintro ⟨k, h1, hF, hAll, hStop, hV⟩
        refine ⟨k + 1, by omega, by omega, ?_, ?_, ?_⟩
        · intro j hj1 hjk
          match j, hj1 with
          | 1, _ => rwa [Function.iterate_one]
          | (j' + 2), _ =>
            rw [Function.iterate_succ_apply]
            exact hAll (j' + 1) (by omega) (by omega)
        · rwa [Function.iterate_succ_apply]
        · rwa [Function.iterate_succ_apply]
      · rintro ⟨k, h1, hF, hAll, hStop, hV⟩
        have hk2 : 2 ≤ k := by
          rcases Nat.lt_or_ge k 2 with h | h
          · have hk1 : k = 1 := by omega
            subst hk1
            rw [Function.iterate_one] at hStop
            exact absurd hP hStop
          · exact h
        refine ⟨k - 1, by omega, by omega, ?_, ?_, ?_⟩
        · intro j hj1 hjk
          rw [← Function.iterate_succ_apply]
          exact hAll (j + 1) (by omega) (by omega)
        · rw [← Function.iterate_succ_apply]
          have hk : (k - 1).succ = k := by omega
          rwa [hk]
        · rw [← Function.iterate_succ_apply]
          have hk : (k - 1).succ = k := by omega
          rwa [hk]
    · rw [if_neg hP]
      constructor
      · intro h
        refine ⟨1, le_rfl, by omega, by omega, ?_, ?_⟩
        · rwa [Function.iterate_one]
        · rw [Function.iterate_one]
          exact (Option.some.injEq _ _ ▸ h).symm
      · rintro ⟨k, h1, hF, hAll, hStop, hV⟩
        have hk1 : k = 1 := by
          by_contra hne
          have h2 : 2 ≤ k := by omega
          have := hAll 1 le_rfl (by omega)
          rw [Function.iterate_one] at this
          exact hP this
        subst hk1
        rw [Function.iterate_one] at hV
        rw [hV]

end LeadSelfEnergy

namespace LeadSelfEnergy

/-- One unfolding of the `get_sgfinv` loop. -/
theorem sgfLoop_succ {n : ℕ} (fuel : ℕ) (st : SGState n) :
    sgfLoop (fuel + 1) st =
      if deltaAbove (sgfStep st).v01 conv then sgfLoop fuel (sgfStep st)
      else some (sgfStep st).v00 := rfl

/-- One unfolding of the claim-variant loop. -/
theorem claimSgfLoop_succ {n : ℕ} (fuel : ℕ) (st : SGState n) :
    claimSgfLoop (fuel + 1) st =
      if ∃ p q, conv ^ 2 ≤ QC.absSq ((sgfStep st).v01 p q) then
        claimSgfLoop fuel (sgfStep st)
      else some (sgfStep st).v00 := rfl

/-- The loop guard on a 1×1 matrix reads on the single entry. -/
theorem deltaAbove_fin_one (M : Matrix (Fin 1) (Fin 1) QC) (c : ℚ) :
    deltaAbove M c ↔ c ^ 2 < QC.absSq (M 0 0) := by
  constructor
  · rintro ⟨p, q, h⟩
    rwa [Fin.eq_zero p, Fin.eq_zero q] at h
  · intro h
    exact ⟨0, 0, h⟩

/-- The claim's strict guard on a 1×1 matrix reads on the single entry. -/
theorem claimGuard_fin_one (M : Matrix (Fin 1) (Fin 1) QC) (c : ℚ) :
    (∃ p q, c ^ 2 ≤ QC.absSq (M p q)) ↔ c ^ 2 ≤ QC.absSq (M 0 0) := by
  constructor
  · rintro ⟨p, q, h⟩
    rwa [Fin.eq_zero p, Fin.eq_zero q] at h
  · intro h
    exact ⟨0, 0, h⟩

/-- Entrywise form of the loop body on 1×1 working matrices. -/
theorem sgfStep_fin_one (st : SGState 1) :
    (sgfStep st).v00 0 0
        = st.v00 0 0 - st.v01 0 0 * (QC.inv (st.v11 0 0) * st.v10 0 0) ∧
    (sgfStep st).v11 0 0
        = st.v11 0 0 - st.v10 0 0 * (QC.inv (st.v11 0 0) * st.v01 0 0)
            - st.v01 0 0 * (QC.inv (st.v11 0 0) * st.v10 0 0) ∧
    (sgfStep st).v10 0 0 = -(st.v10 0 0 * (QC.inv (st.v11 0 0) * st.v10 0 0)) ∧
    (sgfStep st).v01 0 0 = -(st.v01 0 0 * (QC.inv (st.v11 0 0) * st.v01 0 0)) := by
  refine ⟨?_, ?_, ?_, ?_⟩ <;>
    simp [sgfStep, Matrix.sub_apply, Matrix.neg_apply, Matrix.mul_apply,
      Fin.sum_univ_one, npsolve_fin_one]

end LeadSelfEnergy

namespace LeadSelfEnergy

/-- Concrete 1×1 lead used to separate the source's stopping rule from the
C1 claim's strict one: after one pass `|v01| = conv` exactly. -/
def cexC1 : LeadSelfEnergy 1 1 :=
  { h_ii := Matrix.of ![![⟨1, 0⟩]]
    s_ii := 0
    h_ij := Matrix.of ![![⟨-1/10000, 0⟩]]
    s_ij := 0
    h_im := 0
    s_im := 0
    eta := 0
    energy := none
    bias := 0
    sigma_mm := 0 }

example : zOf cexC1 0 = 0 := by
  simp only [zOf, cexC1]
  simp only [QC.zero_def, QC.sub_def, QC.add_def, QC.mk_eq_mk]
  norm_num

example : (sgfInit cexC1 (zOf cexC1 0)).v00 0 0 = ⟨-1, 0⟩ := by
  simp only [sgfInit, zOf, cexC1, Matrix.sub_apply, smul_apply, dagger_apply,
    Matrix.zero_apply, Matrix.of_apply, Matrix.cons_val_zero]
  simp only [QC.conj, QC.zero_def, QC.sub_def, QC.add_def, QC.mul_def, QC.mk_eq_mk]
  norm_num

end LeadSelfEnergy

namespace LeadSelfEnergy

/-- C1, counterexample to the strict stopping rule: on `cexC1` at energy 0 the
first pass leaves `max(|v01|) = conv` exactly, so the source loop stops but a
loop that stops only when `max(|v01|) < conv` runs once more and returns a
different `v00`. -/
theorem c1_counterexample :
    (get_sgfinv cexC1 0 5).map (fun M => M 0 0) ≠
      (claimSgfinv cexC1 0 5).map (fun M => M 0 0) := by
  have h000 : (sgfInit cexC1 (zOf cexC1 0)).v00 0 0 = ⟨-1, 0⟩ := by
    simp only [sgfInit, zOf, cexC1, Matrix.sub_apply, smul_apply, dagger_apply,
      Matrix.zero_apply, Matrix.of_apply, Matrix.cons_val_zero]
    simp only [QC.conj, QC.zero_def, QC.sub_def, QC.add_def, QC.mul_def, QC.mk_eq_mk]
    norm_num
  have h011 : (sgfInit cexC1 (zOf cexC1 0)).v11 0 0 = ⟨-1, 0⟩ := h000
  have h010 : (sgfInit cexC1 (zOf cexC1 0)).v10 0 0 = ⟨1/10000, 0⟩ := by
    simp only [sgfInit, zOf, cexC1, Matrix.sub_apply, smul_apply, dagger_apply,
      Matrix.zero_apply, Matrix.of_apply, Matrix.cons_val_zero]
    simp only [QC.conj, QC.zero_def, QC.sub_def, QC.add_def, QC.mul_def, QC.mk_eq_mk]
    norm_num
  have h001 : (sgfInit cexC1 (zOf cexC1 0)).v01 0 0 = ⟨1/10000, 0⟩ := by
    simp only [sgfInit, zOf, cexC1, Matrix.sub_apply, smul_apply, dagger_apply,
      Matrix.zero_apply, Matrix.of_apply, Matrix.cons_val_zero]
    simp only [QC.conj, QC.zero_def, QC.sub_def, QC.add_def, QC.mul_def, QC.mk_eq_mk]
    norm_num
  obtain ⟨s100, s111, s110, s101⟩ := sgfStep_fin_one (sgfInit cexC1 (zOf cexC1 0))
  simp only [h000, h011, h010, h001] at s100 s111 s110 s101
  have v100 : (sgfStep (sgfInit cexC1 (zOf cexC1 0))).v00 0 0
      = ⟨-1 + 1/100000000, 0⟩ := by
    rw [s100]
    simp only [QC.inv, QC.absSq, QC.mul_def, QC.sub_def, QC.neg_def, QC.mk_eq_mk]
    norm_num
  have v111 : (sgfStep (sgfInit cexC1 (zOf cexC1 0))).v11 0 0
      = ⟨-1 + 2/100000000, 0⟩ := by
    rw [s111]
    simp only [QC.inv, QC.absSq, QC.mul_def, QC.sub_def, QC.neg_def, QC.mk_eq_mk]
    norm_num
  have v110 : (sgfStep (sgfInit cexC1 (zOf cexC1 0))).v10 0 0
      = ⟨1/100000000, 0⟩ := by
    rw [s110]
    simp only [QC.inv, QC.absSq, QC.mul_def, QC.sub_def, QC.neg_def, QC.mk_eq_mk]
    norm_num
  have v101 : (sgfStep (sgfInit cexC1 (zOf cexC1 0))).v01 0 0
      = ⟨1/100000000, 0⟩ := by
    rw [s101]
    simp only [QC.inv, QC.absSq, QC.mul_def, QC.sub_def, QC.neg_def, QC.mk_eq_mk]
    norm_num
  obtain ⟨t200, -, -, t201⟩ := sgfStep_fin_one (sgfStep (sgfInit cexC1 (zOf cexC1 0)))
  simp only [v100, v111, v110, v101] at t200 t201
  have v200 : (sgfStep (sgfStep (sgfInit cexC1 (zOf cexC1 0)))).v00 0 0
      = ⟨-9999999700000001/9999999800000000, 0⟩ := by
    rw [t200]
    simp only [QC.inv, QC.absSq, QC.mul_def, QC.sub_def, QC.neg_def, QC.mk_eq_mk]
    norm_num
  have v201 : (sgfStep (sgfStep (sgfInit cexC1 (zOf cexC1 0)))).v01 0 0
      = ⟨1/9999999800000000, 0⟩ := by
    rw [t201]
    simp only [QC.inv, QC.absSq, QC.mul_def, QC.sub_def, QC.neg_def, QC.mk_eq_mk]
    norm_num
  have hg1 : ¬ deltaAbove ((sgfStep (sgfInit cexC1 (zOf cexC1 0))).v01) conv := by
    rw [deltaAbove_fin_one, v101]
    simp only [QC.absSq, conv]
    norm_num
  have hg1' : ∃ p q, conv ^ 2 ≤
      QC.absSq ((sgfStep (sgfInit cexC1 (zOf cexC1 0))).v01 p q) := by
    rw [claimGuard_fin_one, v101]
    simp only [QC.absSq, conv]
    norm_num
  have hg2' : ¬ ∃ p q, conv ^ 2 ≤
      QC.absSq ((sgfStep (sgfStep (sgfInit cexC1 (zOf cexC1 0)))).v01 p q) := by
    rw [claimGuard_fin_one, v201]
    simp only [QC.absSq, conv]
    norm_num
  have hcode : get_sgfinv cexC1 0 5
      = some (sgfStep (sgfInit cexC1 (zOf cexC1 0))).v00 := by
    show sgfLoop (4 + 1) (sgfInit cexC1 (zOf cexC1 0)) = _
    rw [sgfLoop_succ, if_neg hg1]
  have hclaim : claimSgfinv cexC1 0 5
      = some (sgfStep (sgfStep (sgfInit cexC1 (zOf cexC1 0)))).v00 := by
    show claimSgfLoop (4 + 1) (sgfInit cexC1 (zOf cexC1 0)) = _
    rw [claimSgfLoop_succ, if_pos hg1']
    show claimSgfLoop (3 + 1) _ = _
    rw [claimSgfLoop_succ, if_neg hg2']
  rw [hcode, hclaim]
  simp only [Option.map_some', ne_eq, Option.some.injEq]
  intro hcontra
  have : (sgfStep (sgfInit cexC1 (zOf cexC1 0))).v00 0 0
      = (sgfStep (sgfStep (sgfInit cexC1 (zOf cexC1 0)))).v00 0 0 := hcontra
  rw [v100, v200, QC.mk_eq_mk] at this
  have hre := this.1
  norm_num at hre

end LeadSelfEnergy

namespace LeadSelfEnergy

/-- C1 (amended): `get_sgfinv` at energy `E` initializes
`v00 = v11 = z·S_ii† − H_ii†`, `v10 = z·S_ij − H_ij`, `v01 = z·S_ij† − H_ij†`
with `z = E − bias + iη`, then repeats the updates
`a = solve(v11, v01)`, `b = solve(v11, v10)`, `v00 -= v01·b`,
`v11 -= v10·a + v01·b`, `v01 = −v01·a`, `v10 = −v10·b`, stopping exactly when
`max(|v01|) ≤ conv` (the first pass at which `v01` is not above the
threshold, with at least one pass always executed), and returns `v00`; there
is no iteration cap — for every fuel bound, a value is returned precisely
when such a pass lies within the bound. -/
theorem c1_sgfinv_algorithm {n m : ℕ} (lse : LeadSelfEnergy n m) (E : QC)
    (fuel : ℕ) (V : Matrix (Fin n) (Fin n) QC) :
    (sgfInit lse (zOf lse E) =
      { v00 := zOf lse E • dagger lse.s_ii - dagger lse.h_ii
        v11 := zOf lse E • dagger lse.s_ii - dagger lse.h_ii
        v10 := zOf lse E • lse.s_ij - lse.h_ij
        v01 := zOf lse E • dagger lse.s_ij - dagger lse.h_ij }) ∧
    (∀ st : SGState n,
      sgfStep st =
        { v00 := st.v00 - st.v01 * npsolve st.v11 st.v10
          v11 := st.v11 - st.v10 * npsolve st.v11 st.v01
                   - st.v01 * npsolve st.v11 st.v10
          v10 := -(st.v10 * npsolve st.v11 st.v10)
          v01 := -(st.v01 * npsolve st.v11 st.v01) }) ∧
    (get_sgfinv lse E fuel = some V ↔
      ∃ k, 1 ≤ k ∧ k ≤ fuel ∧
        (∀ j, 1 ≤ j → j < k →
          deltaAbove ((sgfStep^[j] (sgfInit lse (zOf lse E))).v01) conv) ∧
        ¬ deltaAbove ((sgfStep^[k] (sgfInit lse (zOf lse E))).v01) conv ∧
        V = (sgfStep^[k] (sgfInit lse (zOf lse E))).v00) := by
  refine ⟨rfl, fun st => rfl, ?_⟩
  exact loop_eq_some_iff sgfLoop (fun st => deltaAbove st.v01 conv)
    (fun st => rfl) (fun fuel st => rfl) fuel (sgfInit lse (zOf lse E)) V

end LeadSelfEnergy

namespace LeadSelfEnergy

/-- Σ as the C2 claim describes it: the matrix `τ_mi` taken to be the
conjugate transpose of `τ_im` (instead of the source's `z·S_im† − H_im†`). -/
def claimCallSigma {n m : ℕ} (lse : LeadSelfEnergy n m) (energy : QC) (fuel : ℕ) :
    Option (Matrix (Fin m) (Fin m) QC) :=
  let z := zOf lse energy
  let tau_im := z • lse.s_im - lse.h_im
  (get_sgfinv lse energy fuel).map fun G => dagger tau_im * npsolve G tau_im

/-- Concrete 1×1 lead with nonzero `η` and overlap to the central region:
here `z` is not real, so `z·S_im† − H_im†` is not the conjugate transpose
of `τ_im`. -/
def cexC2 : LeadSelfEnergy 1 1 :=
  { h_ii := Matrix.of ![![⟨-1, 0⟩]]
    s_ii := 0
    h_ij := 0
    s_ij := 0
    h_im := 0
    s_im := Matrix.of ![![⟨1, 0⟩]]
    eta := 1
    energy := none
    bias := 0
    sigma_mm := 0 }

/-- On `cexC2` the decimation loop exits after its first pass with the
surface inverse equal to the 1×1 identity. -/
theorem cexC2_sgfinv : get_sgfinv cexC2 0 5 = some (Matrix.of ![![(⟨1, 0⟩ : QC)]]) := by
  have h000 : (sgfInit cexC2 (zOf cexC2 0)).v00 0 0 = ⟨1, 0⟩ := by
    simp only [sgfInit, zOf, cexC2, Matrix.sub_apply, smul_apply, dagger_apply,
      Matrix.zero_apply, Matrix.of_apply, Matrix.cons_val_zero]
    simp only [QC.conj, QC.zero_def, QC.sub_def, QC.add_def, QC.mul_def, QC.mk_eq_mk]
    norm_num
  have h011 : (sgfInit cexC2 (zOf cexC2 0)).v11 0 0 = ⟨1, 0⟩ := h000
  have h010 : (sgfInit cexC2 (zOf cexC2 0)).v10 0 0 = ⟨0, 0⟩ := by
    simp only [sgfInit, zOf, cexC2, Matrix.sub_apply, smul_apply, dagger_apply,
      Matrix.zero_apply, Matrix.of_apply, Matrix.cons_val_zero]
    simp only [QC.conj, QC.zero_def, QC.sub_def, QC.add_def, QC.mul_def, QC.mk_eq_mk]
    norm_num
  have h001 : (sgfInit cexC2 (zOf cexC2 0)).v01 0 0 = ⟨0, 0⟩ := by
    simp only [sgfInit, zOf, cexC2, Matrix.sub_apply, smul_apply, dagger_apply,
      Matrix.zero_apply, Matrix.of_apply, Matrix.cons_val_zero]
    simp only [QC.conj, QC.zero_def, QC.sub_def, QC.add_def, QC.mul_def, QC.mk_eq_mk]
    norm_num
  obtain ⟨s100, -, -, s101⟩ := sgfStep_fin_one (sgfInit cexC2 (zOf cexC2 0))
  simp only [h000, h011, h010, h001] at s100 s101
  have v100 : (sgfStep (sgfInit cexC2 (zOf cexC2 0))).v00 0 0 = ⟨1, 0⟩ := by
    rw [s100]
    simp only [QC.inv, QC.absSq, QC.mul_def, QC.sub_def, QC.neg_def, QC.mk_eq_mk]
    norm_num
  have v101 : (sgfStep (sgfInit cexC2 (zOf cexC2 0))).v01 0 0 = ⟨0, 0⟩ := by
    rw [s101]
    simp only [QC.inv, QC.absSq, QC.mul_def, QC.sub_def, QC.neg_def, QC.mk_eq_mk]
    norm_num
  have hg1 : ¬ deltaAbove ((sgfStep (sgfInit cexC2 (zOf cexC2 0))).v01) conv := by
    rw [deltaAbove_fin_one, v101]
    simp only [QC.absSq, conv]
    norm_num
  have hmat : (sgfStep (sgfInit cexC2 (zOf cexC2 0))).v00
      = Matrix.of ![![(⟨1, 0⟩ : QC)]] := by
    ext p q
    rw [Fin.eq_zero p, Fin.eq_zero q, v100]
    simp only [Matrix.of_apply, Matrix.cons_val_zero]
  show sgfLoop (4 + 1) (sgfInit cexC2 (zOf cexC2 0)) = _
  rw [sgfLoop_succ, if_neg hg1, hmat]

end LeadSelfEnergy

namespace LeadSelfEnergy

/-- C2, counterexample: with `η = 1` the energy shift `z` is not real, so the
`τ_mi = z·S_im† − H_im†` used by `__call__` is not the conjugate transpose of
`τ_im`, and the returned Σ differs from the claim's `τ_im† · a_im`. -/
theorem c2_counterexample :
    (callLSE cexC2 0 5).map (fun p => p.1 0 0) ≠
      (claimCallSigma cexC2 0 5).map (fun M => M 0 0) := by
  have hne : ¬ (some (0 : QC) = cexC2.energy) := by
    simp [cexC2]
  have hcode : callLSE cexC2 0 5 =
      some ((zOf cexC2 0 • dagger cexC2.s_im - dagger cexC2.h_im) *
              npsolve (Matrix.of ![![(⟨1, 0⟩ : QC)]])
                (zOf cexC2 0 • cexC2.s_im - cexC2.h_im),
            { cexC2 with
              energy := some 0
              sigma_mm := (zOf cexC2 0 • dagger cexC2.s_im - dagger cexC2.h_im) *
                npsolve (Matrix.of ![![(⟨1, 0⟩ : QC)]])
                  (zOf cexC2 0 • cexC2.s_im - cexC2.h_im) }) := by
    simp only [callLSE, cexC2_sgfinv]
    rw [if_neg hne]
  have hclaim : claimCallSigma cexC2 0 5 =
      some (dagger (zOf cexC2 0 • cexC2.s_im - cexC2.h_im) *
              npsolve (Matrix.of ![![(⟨1, 0⟩ : QC)]])
                (zOf cexC2 0 • cexC2.s_im - cexC2.h_im)) := by
    simp only [claimCallSigma, cexC2_sgfinv, Option.map_some']
  rw [hcode, hclaim]
  simp only [Option.map_some', ne_eq, Option.some.injEq]
  simp only [Matrix.mul_apply, Fin.sum_univ_one, npsolve_fin_one, Matrix.sub_apply,
    smul_apply, dagger_apply, Matrix.zero_apply, Matrix.of_apply, Matrix.cons_val_zero,
    zOf, cexC2]
  simp only [QC.conj, QC.inv, QC.absSq, QC.zero_def, QC.sub_def, QC.add_def,
    QC.mul_def, QC.mk_eq_mk]
  norm_num

end LeadSelfEnergy

namespace LeadSelfEnergy

/-- C2 (amended): for every queried energy `E` different from the cached one,
`__call__` computes `τ_im = z·S_im − H_im` with `z = E − bias + iη`, and the
matrix `τ_mi` it uses is `z·S_im† − H_im†` (the conjugate transpose of
`S_im`, `H_im` separately — not of `τ_im`, from which it differs whenever `z`
is not real); the returned self-energy is `Σ = τ_mi · a_im` where `a_im`
solves `surface_inverse(E) · a_im = τ_im`, and Σ is stored in the cache under
energy `E`. -/
theorem c2_call_formula {n m : ℕ} (lse : LeadSelfEnergy n m) (E : QC) (fuel : ℕ)
    (G : Matrix (Fin n) (Fin n) QC)
    (hE : ¬ (some E = lse.energy)) (hG : get_sgfinv lse E fuel = some G) :
    callLSE lse E fuel =
      some ((zOf lse E • dagger lse.s_im - dagger lse.h_im) *
              npsolve G (zOf lse E • lse.s_im - lse.h_im),
            { lse with
              energy := some E
              sigma_mm := (zOf lse E • dagger lse.s_im - dagger lse.h_im) *
                npsolve G (zOf lse E • lse.s_im - lse.h_im) }) := by
  simp only [callLSE, hG]
  rw [if_neg hE]

/-- Witness for `c2_call_formula` at the concrete lead `cexC2`, energy 0. -/
theorem c2_call_formula_witness :
    (¬ (some (0 : QC) = cexC2.energy)) ∧
    get_sgfinv cexC2 0 5 = some (Matrix.of ![![(⟨1, 0⟩ : QC)]]) ∧
    callLSE cexC2 0 5 =
      some ((zOf cexC2 0 • dagger cexC2.s_im - dagger cexC2.h_im) *
              npsolve (Matrix.of ![![(⟨1, 0⟩ : QC)]])
                (zOf cexC2 0 • cexC2.s_im - cexC2.h_im),
            { cexC2 with
              energy := some 0
              sigma_mm := (zOf cexC2 0 • dagger cexC2.s_im - dagger cexC2.h_im) *
                npsolve (Matrix.of ![![(⟨1, 0⟩ : QC)]])
                  (zOf cexC2 0 • cexC2.s_im - cexC2.h_im) }) := by
  refine ⟨by simp [cexC2], cexC2_sgfinv, ?_⟩
  exact c2_call_formula cexC2 0 5 (Matrix.of ![![(⟨1, 0⟩ : QC)]])
    (by simp [cexC2]) cexC2_sgfinv

end LeadSelfEnergy

namespace LeadSelfEnergy

/-- The self-energy returned on `cexC2` at energy 0. -/
def sigmaC2 : Matrix (Fin 1) (Fin 1) QC :=
  (zOf cexC2 0 • dagger cexC2.s_im - dagger cexC2.h_im) *
    npsolve (Matrix.of ![![(⟨1, 0⟩ : QC)]]) (zOf cexC2 0 • cexC2.s_im - cexC2.h_im)

/-- The cache state of `cexC2` after evaluation at energy 0. -/
def stateC2 : LeadSelfEnergy 1 1 :=
  { cexC2 with energy := some 0, sigma_mm := sigmaC2 }

/-- Evaluating `cexC2` at energy 0 succeeds and caches `sigmaC2`. -/
theorem cexC2_call : callLSE cexC2 0 5 = some (sigmaC2, stateC2) := by
  simp only [callLSE, cexC2_sgfinv]
  rw [if_neg (by simp [cexC2])]
  rfl

/-- C3: once `__call__` has succeeded at energy `E`, calling `set_bias` with
a different bias and re-querying the same energy returns the previously
cached Σ unchanged — the cache key is the energy value only, so the result
does not reflect the new bias (no recomputation happens, for any fuel). -/
theorem c3_stale_cache {n m : ℕ} (lse : LeadSelfEnergy n m) (E b : QC)
    (fuel fuel2 : ℕ) (σ : Matrix (Fin m) (Fin m) QC) (lse1 : LeadSelfEnergy n m)
    (h1 : callLSE lse E fuel = some (σ, lse1)) (hb : b ≠ lse1.bias) :
    callLSE (set_bias lse1 b) E fuel2 = some (σ, set_bias lse1 b) := by
  have hkey : lse1.energy = some E ∧ lse1.sigma_mm = σ := by
    by_cases hc : some E = lse.energy
    · simp only [callLSE, if_pos hc, Option.some.injEq, Prod.mk.injEq] at h1
      rw [← h1.2, ← h1.1]
      exact ⟨hc.symm, rfl⟩
    · simp only [callLSE] at h1
      rw [if_neg hc] at h1
      cases hG : get_sgfinv lse E fuel with
      | none =>
        rw [hG] at h1
        exact absurd h1 (by simp)
      | some G =>
        rw [hG] at h1
        simp only [Option.some.injEq, Prod.mk.injEq] at h1
        rw [← h1.2, ← h1.1]
        exact ⟨rfl, rfl⟩
  have hkeyE : some E = (set_bias lse1 b).energy := by
    simp [set_bias, hkey.1]
  simp only [callLSE, if_pos hkeyE]
  have hσ : (set_bias lse1 b).sigma_mm = σ := by
    simp [set_bias, hkey.2]
  rw [hσ]

/-- Witness for `c3_stale_cache`: on `cexC2`, evaluate at energy 0, shift the
bias to 1, re-query energy 0: the stale `sigmaC2` comes back. -/
theorem c3_stale_cache_witness :
    callLSE cexC2 0 5 = some (sigmaC2, stateC2) ∧ (1 : QC) ≠ stateC2.bias ∧
    callLSE (set_bias stateC2 1) 0 7 = some (sigmaC2, set_bias stateC2 1) := by
  have hb : (1 : QC) ≠ stateC2.bias := by
    show (1 : QC) ≠ cexC2.bias
    simp only [cexC2, ne_eq, QC.one_def, QC.zero_def, QC.mk_eq_mk]
    norm_num
  exact ⟨cexC2_call, hb, c3_stale_cache cexC2 0 1 5 7 sigmaC2 stateC2 cexC2_call hb⟩

/-- C4: `get_lambda` returns `Γ = i(Σ(E) − Σ(E)†)` computed from the
self-energy at that energy, and this Γ is Hermitian in exact arithmetic. -/
theorem c4_lambda_hermitian {n m : ℕ} (lse : LeadSelfEnergy n m) (E : QC)
    (fuel : ℕ) (σ : Matrix (Fin m) (Fin m) QC) (lse1 : LeadSelfEnergy n m)
    (h1 : callLSE lse E fuel = some (σ, lse1)) :
    get_lambda lse E fuel = some (QC.ii • (σ - dagger σ), lse1) ∧
    dagger (QC.ii • (σ - dagger σ)) = QC.ii • (σ - dagger σ) := by
  constructor
  · simp only [get_lambda, h1, Option.map_some']
  · ext p q
    simp only [dagger_apply, smul_apply, Matrix.sub_apply]
    rw [QC.conj_mul, QC.conj_ii, QC.conj_sub, QC.conj_conj]
    ring

/-- Witness for `c4_lambda_hermitian` on the concrete lead `cexC2`. -/
theorem c4_lambda_hermitian_witness :
    callLSE cexC2 0 5 = some (sigmaC2, stateC2) ∧
    get_lambda cexC2 0 5 = some (QC.ii • (sigmaC2 - dagger sigmaC2), stateC2) ∧
    dagger (QC.ii • (sigmaC2 - dagger sigmaC2)) = QC.ii • (sigmaC2 - dagger sigmaC2) := by
  refine ⟨cexC2_call, ?_, ?_⟩
  · exact (c4_lambda_hermitian cexC2 0 5 sigmaC2 stateC2 cexC2_call).1
  · exact (c4_lambda_hermitian cexC2 0 5 sigmaC2 stateC2 cexC2_call).2

end LeadSelfEnergy

/-! ## Embedding of `ase.phonons.Phonons.read`

Replica (unit-cell) indices on an `l × m × n` supercell grid are embedded as
`ZMod l × ZMod m × ZMod n`, matching the periodic wrap-around of the cell
ordering (`m = 0, 1, ..., -2, -1`).  A block of force constants carries the
row index `(b, j)` and column index `(a, i)` of the source's
`(M, 3N, 3N)`-shaped array `C_lmn` (after `C_m.transpose().reshape(...)` the
row of each block is the force/response index and the column the
displacement index). -/

namespace Phonons

/-- Replica (cell) index on the supercell grid. -/
abbrev Rep (l m n : ℕ) := ZMod l × ZMod m × ZMod n

/-- Composite atom/Cartesian-direction index (`3a + i` in the source). -/
abbrev AIdx (N : ℕ) := Fin N × Fin 3

/-- Per-displacement force samples: `fminus a i` and `fplus a i` are the
force arrays (over supercell atoms `(cell, atom)` and force direction) read
from `name.<a><xyz[i]>-.pckl` / `+.pckl`. -/
structure ForceData (l m n N : ℕ) where
  fminus : Fin N → Fin 3 → Rep l m n × Fin N → Fin 3 → ℚ
  fplus : Fin N → Fin 3 → Rep l m n × Fin N → Fin 3 → ℚ

/-- The `method` flag of `Phonons.read`. -/
inductive FCMethod
  | standard
  | frederiksen

variable {l m n N : ℕ} [NeZero l] [NeZero m] [NeZero n]

/-- Force correction: `standard` keeps the raw forces; `frederiksen`
subtracts the sum of all atoms' forces from the displaced atom's own row
(`f_av[a] -= f_av.sum(0)`), the displaced atom sitting in the home cell. -/
def corrForce (method : FCMethod)
    (F : Fin N → Fin 3 → Rep l m n × Fin N → Fin 3 → ℚ)
    (a : Fin N) (i : Fin 3) : Rep l m n × Fin N → Fin 3 → ℚ :=
  match method with
  | .standard => F a i
  | .frederiksen => fun sc j =>
      F a i sc j - if sc = (0, a) then ∑ sc' : Rep l m n × Fin N, F a i sc' j else 0

/-- The finite-difference force-constant row of displacement `(a, i)`:
`C_av = (fminus_av - fplus_av) / (2 * delta)`, indexed by replica, response
atom and response direction (all atoms are displaced, `indices = range(N)`). -/
def C_assembled (method : FCMethod) (fd : ForceData l m n N) (delta : ℚ)
    (a : Fin N) (i : Fin 3) (R : Rep l m n) (b : Fin N) (j : Fin 3) : ℚ :=
  (corrForce method fd.fminus a i (R, b) j - corrForce method fd.fplus a i (R, b) j)
    / (2 * delta)

/-- The blocks of `C_lmn = C_m.transpose().copy().reshape(N_c + (3N, 3N))`:
block `R` has row `(b, j)` (response) and column `(a, i)` (displacement). -/
def C_blocks0 (method : FCMethod) (fd : ForceData l m n N) (delta : ℚ) :
    Rep l m n → Matrix (AIdx N) (AIdx N) ℚ :=
  fun R => Matrix.of fun x y => C_assembled method fd delta y.1 y.2 R x.1 x.2

/-- Start of the python slice `[i:]` with `i = N % 2 - 1`: `-1` (the last
index) on an even-length axis, `0` (the whole axis) on an odd one. -/
def sliceStart (k : ℕ) : ℕ := if k % 2 = 0 then k - 1 else 0

/-- Index of `p` under the reversal `[::-1]` of the slice `[sliceStart k:]`
(meaningful for `p` inside the slice). -/
def revIdx (k : ℕ) [NeZero k] (p : ZMod k) : ZMod k :=
  ((sliceStart k + (k - 1) - p.val : ℕ) : ZMod k)

/-- The per-axis shift `N_c // 2` of `fft.fftshift`. -/
def shiftOf (k : ℕ) [NeZero k] : ZMod k := ((k / 2 : ℕ) : ZMod k)

/-- The three-axis `fftshift` shift vector. -/
def shiftVec (l m n : ℕ) [NeZero l] [NeZero m] [NeZero n] : Rep l m n :=
  (shiftOf l, shiftOf m, shiftOf n)

/-- Membership of a (shifted) replica index in the symmetrized slice
`C_lmn[i:, j:, k:]`. -/
def inSlice3 (p : Rep l m n) : Prop :=
  sliceStart l ≤ p.1.val ∧ sliceStart m ≤ p.2.1.val ∧ sliceStart n ≤ p.2.2.val

instance (p : Rep l m n) : Decidable (inSlice3 p) := by
  unfold inSlice3
  infer_instance

/-- Three-axis reversal `[::-1, ::-1, ::-1]` of the symmetrized slice. -/
def rev3 (p : Rep l m n) : Rep l m n :=
  (revIdx l p.1, revIdx m p.2.1, revIdx n p.2.2)

/-- The symmetrization step of `Phonons.read`: `fftshift`, halve the slice
`[i:, j:, k:]`, add its reversed and `(a,i)`-`(b,j)`-transposed copy, and
`ifftshift` back. -/
def symmStep (C : Rep l m n → Matrix (AIdx N) (AIdx N) ℚ) :
    Rep l m n → Matrix (AIdx N) (AIdx N) ℚ := fun q =>
  let A : Rep l m n → Matrix (AIdx N) (AIdx N) ℚ := fun p => C (p - shiftVec l m n)
  let p := q + shiftVec l m n
  if inSlice3 p then (1 / 2 : ℚ) • A p + (1 / 2 : ℚ) • (A (rev3 p)).transpose
  else A p

/-- The acoustic-sum-rule step of `Phonons.read`: subtract, from each atomic
diagonal `3×3` block of the `R = 0` replica, the pre-correction blocks
`C[3a:3a+3, 3a_:3a_+3]` summed over every replica and every atom `a_`. -/
def acousticStep (C : Rep l m n → Matrix (AIdx N) (AIdx N) ℚ) :
    Rep l m n → Matrix (AIdx N) (AIdx N) ℚ := fun R =>
  if R = 0 then
    C 0 - Matrix.of fun x y =>
      if x.1 = y.1 then ∑ Rp : Rep l m n, ∑ ap : Fin N, C Rp x (ap, y.2) else 0
  else C R

/-- `Phonons.read`: assemble the force-constant blocks from the pickled
forces, then optionally symmetrize, then optionally restore the acoustic sum
rule.  (Born-charge reading and the mass-weighted `D_m` copy are downstream
of `C_m` and irrelevant to the force-constant claims.) -/
def phononRead (method : FCMethod) (symmetrize acoustic : Bool)
    (fd : ForceData l m n N) (delta : ℚ) :
    Rep l m n → Matrix (AIdx N) (AIdx N) ℚ :=
  let C0 := C_blocks0 method fd delta
  let C1 := if symmetrize then symmStep C0 else C0
  if acoustic then acousticStep C1 else C1

end Phonons

namespace Phonons

variable {l m n N : ℕ} [NeZero l] [NeZero m] [NeZero n]

/-- After the acoustic-sum-rule step, every row `(a, i)` sums to zero over
all replicas and all column blocks at each fixed column direction. -/
theorem acousticStep_row_sum (C : Rep l m n → Matrix (AIdx N) (AIdx N) ℚ)
    (a : Fin N) (i j : Fin 3) :
    ∑ R : Rep l m n, ∑ b : Fin N, acousticStep C R (a, i) (b, j) = 0 := by
  classical
  have hterm : ∀ (R : Rep l m n) (b : Fin N),
      acousticStep C R (a, i) (b, j) =
        C R (a, i) (b, j) -
          (if R = 0 then (if a = b then
              ∑ Rp : Rep l m n, ∑ ap : Fin N, C Rp (a, i) (ap, j) else 0) else 0) := by
    intro R b
    by_cases hR : R = 0
    · subst hR
      simp [acousticStep, Matrix.sub_apply, Matrix.of_apply]
    · simp only [acousticStep, if_neg hR, sub_zero]
  simp only [hterm, Finset.sum_sub_distrib]
  rw [sub_eq_zero]
  have h1 : ∀ R : Rep l m n,
      (∑ b : Fin N, if R = 0 then (if a = b then
          ∑ Rp : Rep l m n, ∑ ap : Fin N, C Rp (a, i) (ap, j) else 0) else 0) =
        if R = 0 then ∑ Rp : Rep l m n, ∑ ap : Fin N, C Rp (a, i) (ap, j) else 0 := by
    intro R
    split_ifs with hR
    · simp [Finset.sum_ite_eq]
    · simp
  rw [Finset.sum_congr rfl fun R _ => h1 R]
  simp [Finset.sum_ite_eq']

end Phonons

namespace Phonons

variable {l m n N : ℕ} [NeZero l] [NeZero m] [NeZero n]

/-- C5: after `Phonons.read` with `acoustic=True`, for every row block `a`
and every pair of Cartesian directions `i, j`, the stored force constants
`C[a,i,b,j](R)` sum to zero over all supercell replicas `R` and all atoms
`b` (translational invariance of the total force), exactly, for every force
dataset, method, and symmetrize setting. -/
theorem c5_acoustic_sum_rule (method : FCMethod) (symmetrize : Bool)
    (fd : ForceData l m n N) (delta : ℚ) (a : Fin N) (i j : Fin 3) :
    ∑ R : Rep l m n, ∑ b : Fin N,
      phononRead method symmetrize true fd delta R (a, i) (b, j) = 0 := by
  simp only [phononRead, if_true]
  exact acousticStep_row_sum
    (if symmetrize then symmStep (C_blocks0 method fd delta)
     else C_blocks0 method fd delta) a i j

/-- The Frederiksen-corrected forces of one displaced configuration sum to
zero over all supercell atoms, in every force direction. -/
theorem fred_sum_zero (F : Fin N → Fin 3 → Rep l m n × Fin N → Fin 3 → ℚ)
    (a : Fin N) (i : Fin 3) (j : Fin 3) :
    ∑ sc : Rep l m n × Fin N, corrForce FCMethod.frederiksen F a i sc j = 0 := by
  classical
  simp only [corrForce, Finset.sum_sub_distrib]
  rw [sub_eq_zero]
  have h1 : (∑ sc : Rep l m n × Fin N,
      if sc = (0, a) then ∑ scp : Rep l m n × Fin N, F a i scp j else 0) =
      ∑ scp : Rep l m n × Fin N, F a i scp j := by
    rw [Finset.sum_ite_eq' Finset.univ ((0 : Rep l m n), a)
      (fun _ => ∑ scp : Rep l m n × Fin N, F a i scp j)]
    rw [if_pos (Finset.mem_univ _)]
  rw [h1]

/-- C10: with `method='frederiksen'`, all atoms displaced, and neither
symmetrization nor acoustic correction, every assembled force-constant row
`(a, i)` sums to exactly zero over all replicas `R` and atoms `b` at each
force direction `j` — in the stored blocks, row `(b, j)` and column `(a, i)`
hold the entry `C[a,i,b,j](R)` of the assembled row. -/
theorem c10_frederiksen_row_sum (fd : ForceData l m n N) (delta : ℚ)
    (a : Fin N) (i : Fin 3) (j : Fin 3) :
    ∑ R : Rep l m n, ∑ b : Fin N,
      phononRead FCMethod.frederiksen false false fd delta R (b, j) (a, i) = 0 := by
  simp only [phononRead, Bool.false_eq_true, if_false, C_blocks0, Matrix.of_apply,
    C_assembled]
  have hsplit : ∀ (R : Rep l m n) (b : Fin N),
      (corrForce FCMethod.frederiksen fd.fminus a i (R, b) j -
        corrForce FCMethod.frederiksen fd.fplus a i (R, b) j) / (2 * delta) =
      corrForce FCMethod.frederiksen fd.fminus a i (R, b) j / (2 * delta) -
        corrForce FCMethod.frederiksen fd.fplus a i (R, b) j / (2 * delta) := by
    intro R b
    ring
  simp only [hsplit, Finset.sum_sub_distrib, ← Finset.sum_div]
  have hm : ∑ R : Rep l m n, ∑ b : Fin N,
      corrForce FCMethod.frederiksen fd.fminus a i (R, b) j = 0 := by
    have h := fred_sum_zero fd.fminus a i j
    rwa [Fintype.sum_prod_type] at h
  have hp : ∑ R : Rep l m n, ∑ b : Fin N,
      corrForce FCMethod.frederiksen fd.fplus a i (R, b) j = 0 := by
    have h := fred_sum_zero fd.fplus a i j
    rwa [Fintype.sum_prod_type] at h
  rw [hm, hp]
  norm_num

end Phonons

namespace Phonons

/-- On an odd axis the slice `[i:]` is the whole axis. -/
theorem sliceStart_odd (t : ℕ) : sliceStart (2 * t + 1) = 0 := by
  have h : (2 * t + 1) % 2 = 1 := by omega
  simp [sliceStart, h]

/-- On an odd axis the `fftshift` shift is `t`. -/
theorem shiftOf_odd (t : ℕ) : shiftOf (2 * t + 1) = ((t : ℕ) : ZMod (2 * t + 1)) := by
  unfold shiftOf
  congr 1
  omega

/-- On an odd axis the slice reversal is `p ↦ 2t − p` in modular arithmetic. -/
theorem revIdx_odd (t : ℕ) (p : ZMod (2 * t + 1)) :
    revIdx (2 * t + 1) p = ((2 * t : ℕ) : ZMod (2 * t + 1)) - p := by
  unfold revIdx
  rw [sliceStart_odd]
  have hv : p.val ≤ 2 * t := by
    have := ZMod.val_lt p
    omega
  have h : (0 + (2 * t + 1 - 1) - p.val : ℕ) = 2 * t - p.val := by omega
  rw [h, Nat.cast_sub hv, ZMod.natCast_rightInverse p]

end Phonons

namespace Phonons

/-- On an odd axis, reversal after `fftshift` then `ifftshift` is negation. -/
theorem rev_shift_odd_axis (t : ℕ) (x : ZMod (2 * t + 1)) :
    revIdx (2 * t + 1) (x + shiftOf (2 * t + 1)) - shiftOf (2 * t + 1) = -x := by
  rw [revIdx_odd, shiftOf_odd]
  push_cast
  ring

/-- Three-axis version of `rev_shift_odd_axis`. -/
theorem rev3_shift_odd {t u v : ℕ} (q : Rep (2 * t + 1) (2 * u + 1) (2 * v + 1)) :
    rev3 (q + shiftVec (2 * t + 1) (2 * u + 1) (2 * v + 1))
        - shiftVec (2 * t + 1) (2 * u + 1) (2 * v + 1) = -q := by
  obtain ⟨q1, q2, q3⟩ := q
  simp only [shiftVec, Prod.mk_add_mk, rev3, Prod.mk_sub_mk, Prod.neg_mk,
    Prod.mk.injEq]
  exact ⟨rev_shift_odd_axis t q1, rev_shift_odd_axis u q2, rev_shift_odd_axis v q3⟩

/-- On an all-odd grid, the symmetrization step averages each replica block
with the transposed block of the negated replica. -/
theorem symmStep_odd_apply {t u v N : ℕ}
    (C : Rep (2 * t + 1) (2 * u + 1) (2 * v + 1) → Matrix (AIdx N) (AIdx N) ℚ)
    (q : Rep (2 * t + 1) (2 * u + 1) (2 * v + 1)) :
    symmStep C q = (1 / 2 : ℚ) • C q + (1 / 2 : ℚ) • (C (-q)).transpose := by
  have hslice : inSlice3 (q + shiftVec (2 * t + 1) (2 * u + 1) (2 * v + 1)) := by
    unfold inSlice3
    refine ⟨?_, ?_, ?_⟩
    · rw [sliceStart_odd]
      exact Nat.zero_le _
    · rw [sliceStart_odd]
      exact Nat.zero_le _
    · rw [sliceStart_odd]
      exact Nat.zero_le _
  have hidx1 : q + shiftVec (2 * t + 1) (2 * u + 1) (2 * v + 1)
      - shiftVec (2 * t + 1) (2 * u + 1) (2 * v + 1) = q :=
    add_sub_cancel_right q _
  have hidx2 := rev3_shift_odd q
  simp only [symmStep]
  rw [if_pos hslice, hidx1, hidx2]

/-- C6 (amended to all-odd supercell grids): after `Phonons.read` with
`symmetrize=True` and `acoustic=False` on a grid of odd sizes, the stored
force constants satisfy `C[a,i,b,j](R) = C[b,j,a,i](−R)` for every replica
`R`, every method and every force dataset.  (On grids with an even dimension
the procedure touches only the final replica slice and the invariant fails —
see the counterexample.) -/
theorem c6_symmetrize_odd {t u v N : ℕ} (method : FCMethod)
    (fd : ForceData (2 * t + 1) (2 * u + 1) (2 * v + 1) N) (delta : ℚ)
    (q : Rep (2 * t + 1) (2 * u + 1) (2 * v + 1)) (x y : AIdx N) :
    phononRead method true false fd delta q x y =
      phononRead method true false fd delta (-q) y x := by
  simp only [phononRead, if_true, Bool.false_eq_true, if_false]
  rw [symmStep_odd_apply, symmStep_odd_apply, neg_neg]
  simp only [Matrix.add_apply, Matrix.smul_apply, Matrix.transpose_apply,
    smul_eq_mul]
  ring

end Phonons

namespace Phonons

/-- Force dataset on a `2×1×1` supercell with one atom: the only nonzero
sample is the minus-displacement force along `x` on the replica-cell atom
when the home atom is displaced along `y`. -/
def fdC6 : ForceData 2 1 1 1 :=
  { fminus := fun _ i sc j => if i = 1 ∧ sc.1.1 = 1 ∧ j = 0 then 1 else 0
    fplus := fun _ _ _ _ => 0 }

/-- C6, counterexample: on the even grid `(2,1,1)` the symmetrization slice
`[-1:, 0:, 0:]` touches only the shifted last replica (which is `R = 0`), so
the `R = 1` block is left unsymmetrized and
`C[a,i,b,j](R=1) ≠ C[b,j,a,i](−R=1)`. -/
theorem c6_counterexample :
    phononRead FCMethod.standard true false fdC6 (1 / 2)
        ((1 : ZMod 2), (0 : ZMod 1), (0 : ZMod 1)) (0, 0) (0, 1) ≠
      phononRead FCMethod.standard true false fdC6 (1 / 2)
        (-((1 : ZMod 2), (0 : ZMod 1), (0 : ZMod 1))) (0, 1) (0, 0) := by
  have hneg : -(((1 : ZMod 2), (0 : ZMod 1), (0 : ZMod 1)) :
      Rep 2 1 1) = ((1 : ZMod 2), (0 : ZMod 1), (0 : ZMod 1)) := by
    decide
  rw [hneg]
  simp only [phononRead, if_true, Bool.false_eq_true, if_false, symmStep]
  rw [if_neg (by decide)]
  simp only [C_blocks0, Matrix.of_apply, C_assembled, corrForce]
  have hcell : ((1 : ZMod 2), (0 : ZMod 1), (0 : ZMod 1)) + shiftVec 2 1 1
      - shiftVec 2 1 1 = ((1 : ZMod 2), (0 : ZMod 1), (0 : ZMod 1)) := by decide
  rw [hcell]
  simp only [fdC6]
  rw [if_pos (by decide), if_neg (by decide)]
  norm_num

end Phonons

/-! ## Embedding of `Phonons.band_structure` and `Phonons.dos`

The Hermitian eigensolver `numpy.linalg.eigvalsh` is an external numerical
collaborator; it is embedded as an oracle argument returning the (sorted)
eigenvalues of the dynamical matrix at a q-point.  Frequencies are real
numbers (complex square root of the eigenvalues with the source's
negative-eigenvalue convention), before the `eV` unit conversion factor. -/

namespace Phonons

variable {l m n N : ℕ} [NeZero l] [NeZero m] [NeZero n]

/-- The wrapped integer lattice coordinate of `R_cm`:
`R_cm += N_c // 2; R_cm %= N_c; R_cm -= N_c // 2`. -/
def wrapInt (k : ℕ) [NeZero k] (p : ZMod k) : ℤ :=
  (((p.val + k / 2) % k : ℕ) : ℤ) - ((k / 2 : ℕ) : ℤ)

/-- `np.dot(q_c, R_cm)` for one replica column. -/
def qdotR (q : Fin 3 → ℚ) (R : Rep l m n) : ℚ :=
  q 0 * wrapInt l R.1 + q 1 * wrapInt m R.2.1 + q 2 * wrapInt n R.2.2

/-- The Fourier sum `D(q) = Σ_R D_m[R] · exp(−2πi q·R)`. -/
noncomputable def Dq (Dm : Rep l m n → Matrix (AIdx N) (AIdx N) ℚ) (q : Fin 3 → ℚ) :
    Matrix (AIdx N) (AIdx N) ℂ :=
  ∑ R : Rep l m n,
    Complex.exp (-2 * (Real.pi : ℂ) * Complex.I * ((qdotR q R : ℚ) : ℂ)) •
      (Dm R).map (fun x => ((x : ℚ) : ℂ))

open Classical in
/-- The number of negative eigenvalues at a q-point (`len(indices)` of
`np.where(omega2_n < 0)`). -/
noncomputable def negCount (w2 : AIdx N → ℝ) : ℕ :=
  (Finset.univ.filter fun idx => w2 idx < 0).card

open Classical in
/-- Per-q-point processing of the sorted eigenvalues `ω²`: frequencies by
complex square root with negative eigenvalues reported as `−sqrt|ω²|`, and
the printed diagnostic (count of imaginary frequencies, q-point) when any
eigenvalue is negative. -/
noncomputable def processQ
    (eig : Matrix (AIdx N) (AIdx N) ℂ → AIdx N → ℝ)
    (Dm : Rep l m n → Matrix (AIdx N) (AIdx N) ℚ) (q : Fin 3 → ℚ) :
    (AIdx N → ℝ) × Option (ℕ × (Fin 3 → ℚ)) :=
  (fun idx =>
    if eig (Dq Dm q) idx < 0 then -Real.sqrt (-(eig (Dq Dm q) idx))
    else Real.sqrt (eig (Dq Dm q) idx),
   if 0 < negCount (eig (Dq Dm q)) then some (negCount (eig (Dq Dm q)), q) else none)

/-- The assertion guarding `band_structure`:
`np.all(np.asarray(k_c) <= 1.0)` for every `k_c` of the path. -/
def pathOk (path : List (Fin 3 → ℚ)) : Prop :=
  ∀ q ∈ path, ∀ c, q c ≤ 1

instance (path : List (Fin 3 → ℚ)) : Decidable (pathOk path) := by
  unfold pathOk
  infer_instance

/-- The q-point acceptance condition as the C8 claim words it: every
component of magnitude at most 1. -/
def claimPathOk (path : List (Fin 3 → ℚ)) : Prop :=
  ∀ q ∈ path, ∀ c, |q c| ≤ 1

/-- `Phonons.band_structure` (frequencies and diagnostics per q-point,
before unit conversion): `none` models the `AssertionError` on a rejected
path; otherwise every q-point of the path is processed in order. -/
noncomputable def band_structure
    (eig : Matrix (AIdx N) (AIdx N) ℂ → AIdx N → ℝ)
    (Dm : Rep l m n → Matrix (AIdx N) (AIdx N) ℚ) (path : List (Fin 3 → ℚ)) :
    Option (List ((AIdx N → ℝ) × Option (ℕ × (Fin 3 → ℚ)))) :=
  if pathOk path then some (path.map (processQ eig Dm)) else none

end Phonons

namespace Phonons

variable {l m n N : ℕ} [NeZero l] [NeZero m] [NeZero n]

/-- `band_structure` succeeds exactly when its assertion holds. -/
theorem band_structure_isSome_iff (eig : Matrix (AIdx N) (AIdx N) ℂ → AIdx N → ℝ)
    (Dm : Rep l m n → Matrix (AIdx N) (AIdx N) ℚ) (path : List (Fin 3 → ℚ)) :
    (band_structure eig Dm path).isSome = true ↔ pathOk path := by
  unfold band_structure
  split_ifs with h
  · simp only [Option.isSome_some, true_iff]
    exact h
  · simp only [Option.isSome_none, Bool.false_eq_true, false_iff]
    exact h

/-- C8 (amended): `band_structure` rejects a path exactly when some
wavevector component exceeds 1 — the check `k_c <= 1.0` is one-sided, so
components below −1 are accepted. -/
theorem c8_path_check (eig : Matrix (AIdx N) (AIdx N) ℂ → AIdx N → ℝ)
    (Dm : Rep l m n → Matrix (AIdx N) (AIdx N) ℚ) (path : List (Fin 3 → ℚ)) :
    (band_structure eig Dm path).isSome = true ↔ ∀ q ∈ path, ∀ c, q c ≤ 1 :=
  band_structure_isSome_iff eig Dm path

/-- The out-of-zone wavevector `(-2, 0, 0)`. -/
def qBad : Fin 3 → ℚ := ![-2, 0, 0]

/-- C8, counterexample: `(-2, 0, 0)` has a component of magnitude 2, so the
claim demands rejection, but the source's one-sided assertion accepts it. -/
theorem c8_counterexample :
    (band_structure (fun _ _ => (0 : ℝ))
        (fun _ : Rep 1 1 1 => (0 : Matrix (AIdx 1) (AIdx 1) ℚ)) [qBad]).isSome = true
      ∧ ¬ claimPathOk [qBad] := by
  constructor
  · rw [band_structure_isSome_iff]
    intro q hq c
    simp only [List.mem_singleton] at hq
    subst hq
    fin_cases c <;> norm_num [qBad]
  · intro h
    have h2 := h qBad (by simp) 0
    norm_num [qBad] at h2

end Phonons

namespace Phonons

variable {l m n N : ℕ} [NeZero l] [NeZero m] [NeZero n]

/-- C9: whenever an eigenvalue `ω²` of the dynamical matrix at a q-point of
an accepted path is negative, `band_structure` succeeds on the whole path
(one result per q-point, no error is raised), the returned frequency for
that mode is `−sqrt(|ω²|)` (a negative real number, before unit conversion),
and the diagnostic carrying the count of imaginary frequencies and the
q-point is emitted at that q-point. -/
theorem c9_negative_frequency (eig : Matrix (AIdx N) (AIdx N) ℂ → AIdx N → ℝ)
    (Dm : Rep l m n → Matrix (AIdx N) (AIdx N) ℚ) (path : List (Fin 3 → ℚ))
    (hpath : pathOk path) (i : ℕ) (hi : i < path.length) (idx : AIdx N)
    (hneg : eig (Dq Dm (path.get ⟨i, hi⟩)) idx < 0) :
    band_structure eig Dm path = some (path.map (processQ eig Dm)) ∧
    (path.map (processQ eig Dm)).length = path.length ∧
    ((path.map (processQ eig Dm)).get
        ⟨i, by rw [List.length_map]; exact hi⟩).1 idx
      = -Real.sqrt (-(eig (Dq Dm (path.get ⟨i, hi⟩)) idx)) ∧
    ((path.map (processQ eig Dm)).get
        ⟨i, by rw [List.length_map]; exact hi⟩).2
      = some (negCount (eig (Dq Dm (path.get ⟨i, hi⟩))), path.get ⟨i, hi⟩) := by
  classical
  have hget : (path.map (processQ eig Dm)).get ⟨i, by rw [List.length_map]; exact hi⟩
      = processQ eig Dm (path.get ⟨i, hi⟩) := by
    simp [List.get_eq_getElem, List.getElem_map]
  have hcnt : 0 < negCount (eig (Dq Dm (path.get ⟨i, hi⟩))) := by
    rw [negCount]
    apply Finset.card_pos.mpr
    refine ⟨idx, ?_⟩
    simp only [Finset.mem_filter, Finset.mem_univ, true_and]
    simpa using hneg
  refine ⟨?_, by simp, ?_, ?_⟩
  · unfold band_structure
    rw [if_pos hpath]
  · rw [hget]
    simp only [processQ]
    rw [if_pos hneg]
  · rw [hget]
    simp only [processQ]
    rw [if_pos hcnt]

/-- Concrete Γ-point path for the C9 witness. -/
def qW : Fin 3 → ℚ := fun _ => 0

/-- Concrete (zero) dynamical-matrix blocks on a 1×1×1 grid with one atom. -/
def DmW : Rep 1 1 1 → Matrix (AIdx 1) (AIdx 1) ℚ := fun _ => 0

/-- Concrete eigensolver oracle reporting the eigenvalue −4 for every mode. -/
noncomputable def eigW : Matrix (AIdx 1) (AIdx 1) ℂ → AIdx 1 → ℝ := fun _ _ => -4

/-- Witness for `c9_negative_frequency` at the Γ point with eigenvalue −4. -/
theorem c9_negative_frequency_witness :
    pathOk [qW] ∧ eigW (Dq DmW qW) (0, 0) < 0 ∧
    band_structure eigW DmW [qW] = some ([qW].map (processQ eigW DmW)) ∧
    (([qW].map (processQ eigW DmW)).get ⟨0, by simp⟩).1 (0, 0)
      = -Real.sqrt (-(eigW (Dq DmW qW) (0, 0))) ∧
    (([qW].map (processQ eigW DmW)).get ⟨0, by simp⟩).2
      = some (negCount (eigW (Dq DmW qW)), qW) := by
  have hpath : pathOk [qW] := by
    intro q hq c
    simp only [List.mem_singleton] at hq
    subst hq
    norm_num [qW]
  have hneg : eigW (Dq DmW qW) (0, 0) < 0 := by
    norm_num [eigW]
  obtain ⟨h1, h2, h3, h4⟩ :=
    c9_negative_frequency eigW DmW [qW] hpath 0 (by norm_num) (0, 0) hneg
  exact ⟨hpath, hneg, h1, h3, h4⟩

end Phonons

namespace Phonons

variable {K nb : ℕ}

/-- `np.amax(omega_kn)` over all k-points and branches. -/
def amaxFreq [NeZero K] [NeZero nb] (w : Fin K → Fin nb → ℚ) : ℚ :=
  Finset.sup' Finset.univ Finset.univ_nonempty
    (fun p : Fin K × Fin nb => w p.1 p.2)

/-- Energy point `e` of `np.linspace(0., np.amax(omega_kn) + 5e-3, npts)`. -/
def omegaAxis [NeZero K] [NeZero nb] (w : Fin K → Fin nb → ℚ) (npts : ℕ)
    (e : Fin npts) : ℚ :=
  (amaxFreq w + 5 / 1000) * (e : ℚ) / ((npts : ℚ) - 1)

/-- The source's accumulation at one energy point: per k-point, the
reciprocal of `x_en.sum(axis=1) + (0.5*delta)**2` — the sum over branches
sits inside the denominator. -/
def dosSumCode (w : Fin K → Fin nb → ℚ) (delta E : ℚ) : ℚ :=
  ∑ k : Fin K, 1 / ((∑ j : Fin nb, (E - w k j) ^ 2) + (delta / 2) ^ 2)

/-- The claim's Lorentzian accumulation: a sum of per-mode reciprocals. -/
def dosSumClaim (w : Fin K → Fin nb → ℚ) (delta E : ℚ) : ℚ :=
  ∑ k : Fin K, ∑ j : Fin nb, 1 / ((E - w k j) ^ 2 + (delta / 2) ^ 2)

/-- `Phonons.dos` at energy point `e`, given the band-structure frequencies:
accumulate `dosSumCode` and scale by `1/(N·π) · delta/2`. -/
noncomputable def dosCode [NeZero K] [NeZero nb] (w : Fin K → Fin nb → ℚ)
    (delta : ℚ) (npts : ℕ) (e : Fin npts) : ℝ :=
  1 / ((K : ℝ) * Real.pi) * ((delta : ℝ) / 2) *
    ((dosSumCode w delta (omegaAxis w npts e) : ℚ) : ℝ)

/-- The dos value the C7 claim describes:
`(delta/2π) · Σ_{k,n} 1/((E − ω_kn)² + (delta/2)²)` divided by `N`. -/
noncomputable def dosClaim [NeZero K] [NeZero nb] (w : Fin K → Fin nb → ℚ)
    (delta : ℚ) (npts : ℕ) (e : Fin npts) : ℝ :=
  (delta : ℝ) / (2 * Real.pi) *
    ((dosSumClaim w delta (omegaAxis w npts e) : ℚ) : ℝ) / (K : ℝ)

/-- One k-point, two branches at frequencies 0 and 1. -/
def wC7 : Fin 1 → Fin 2 → ℚ := fun _ j => if j = 0 then 0 else 1

/-- C7: at the first energy point (`E = 0`) of the axis for `wC7` with
`delta = 2` and `npts = 2`, the source accumulates `1/((0−0)² + (0−1)² + 1)
= 1/2` — the branch sum sits inside the reciprocal — while the claim's
Lorentzian sum gives `1/1 + 1/2 = 3/2`; the returned dos therefore differs
from the claimed formula. -/
theorem c7_dos_bug :
    dosCode wC7 2 2 0 = 1 / (2 * Real.pi) ∧
    dosClaim wC7 2 2 0 = 3 / (2 * Real.pi) ∧
    dosCode wC7 2 2 0 ≠ dosClaim wC7 2 2 0 := by
  have hE : omegaAxis wC7 2 0 = 0 := by
    simp [omegaAxis]
  have hsc : dosSumCode wC7 2 0 = 1 / 2 := by
    simp only [dosSumCode, Fin.sum_univ_one, Fin.sum_univ_two, wC7]
    norm_num
  have hscl : dosSumClaim wC7 2 0 = 3 / 2 := by
    simp only [dosSumClaim, Fin.sum_univ_one, Fin.sum_univ_two, wC7]
    norm_num
  have h1 : dosCode wC7 2 2 0 = 1 / (2 * Real.pi) := by
    rw [dosCode, hE, hsc]
    push_cast
    field_simp
    ring
  have h2 : dosClaim wC7 2 2 0 = 3 / (2 * Real.pi) := by
    rw [dosClaim, hE, hscl]
    push_cast
    field_simp
    ring
  refine ⟨h1, h2, ?_⟩
  rw [h1, h2]
  intro hcontra
  have hpi : (2 : ℝ) * Real.pi ≠ 0 := by
    positivity
  rw [div_eq_div_iff hpi hpi] at hcontra
  have : (1 : ℝ) = 3 := by
    exact mul_right_cancel₀ hpi hcontra
  norm_num at this

end Phonons

namespace Phonons

/-- Witness for `c5_acoustic_sum_rule` on the concrete dataset `fdC6`
(2×1×1 supercell, symmetrize on): the row sum vanishes after the acoustic
correction. -/
theorem c5_acoustic_sum_rule_witness :
    ∑ R : Rep 2 1 1, ∑ b : Fin 1,
      phononRead FCMethod.standard true true fdC6 (1 / 2) R (0, 0) (b, 1) = 0 :=
  c5_acoustic_sum_rule FCMethod.standard true fdC6 (1 / 2) 0 0 1

/-- Witness for `c10_frederiksen_row_sum` on the concrete dataset `fdC6`. -/
theorem c10_frederiksen_row_sum_witness :
    ∑ R : Rep 2 1 1, ∑ b : Fin 1,
      phononRead FCMethod.frederiksen false false fdC6 (1 / 2) R (b, 0) (0, 1) = 0 :=
  c10_frederiksen_row_sum fdC6 (1 / 2) 0 1 0

/-- Witness for `c8_path_check`: the Γ point passes the assertion. -/
theorem c8_path_check_witness :
    (band_structure (fun _ _ => (0 : ℝ))
      (fun _ : Rep 1 1 1 => (0 : Matrix (AIdx 1) (AIdx 1) ℚ)) [qW]).isSome = true :=
  (c8_path_check _ _ _).mpr (by
    intro q hq c
    simp only [List.mem_singleton] at hq
    subst hq
    norm_num [qW])

end Phonons

namespace Phonons

/-- Force dataset on a `1×1×1` supercell with two atoms whose only nonzero
stored entry is the coupling at response row `(0,x)`, displacement column
`(1,x)`: displacing atom 1 along `x` produces a unit force on atom 0. -/
def fdC5 : ForceData 1 1 1 2 :=
  { fminus := fun a i sc j => if a = 1 ∧ i = 0 ∧ sc.2 = 0 ∧ j = 0 then 1 else 0
    fplus := fun _ _ _ _ => 0 }

/-- C5, counterexample: the acoustic step zeroes each fixed response row
summed over displacement columns, not the claim's sum over response atoms
`b` for a fixed displaced atom `a`.  On `fdC5` the corrected constants are
`−1` at `[(0,x),(0,x)]` and `+1` at `[(0,x),(1,x)]`, so the claim's sum for
displaced atom 1, directions `i = j = x` — stored column `(1,x)` summed over
response rows `(b,x)` and replicas — equals 1, not 0. -/
theorem c5_counterexample :
    ∑ R : Rep 1 1 1, ∑ b : Fin 2,
      phononRead FCMethod.standard false true fdC5 (1 / 2) R (b, 0) (1, 0) ≠ 0 := by
  have huniq : ∀ f : Rep 1 1 1 → ℚ, (∑ R : Rep 1 1 1, f R) = f 0 := by
    intro f
    apply Finset.sum_eq_single_of_mem (0 : Rep 1 1 1) (Finset.mem_univ _)
    intro x _ hx
    exact absurd (Subsingleton.elim x 0) hx
  rw [huniq (fun R => ∑ b : Fin 2,
    phononRead FCMethod.standard false true fdC5 (1 / 2) R (b, 0) (1, 0))]
  rw [Fin.sum_univ_two]
  simp only [phononRead, Bool.false_eq_true, if_false, if_true, acousticStep,
    if_pos rfl, Matrix.sub_apply, Matrix.of_apply]
  simp only [huniq, Fin.sum_univ_two]
  simp only [C_blocks0, Matrix.of_apply, C_assembled, corrForce, fdC5]
  norm_num

end Phonons
